import Mathlib

/-!
Verification of the PRISMAgent vector-storage core
(`src/PRISMAgent/storage/vector_backend.py` and
`src/PRISMAgent/storage/memory_backend.py`) against its specification.

The Python code is shallowly embedded: float values are modelled as
rationals (inputs) and reals (similarity scores), Python dicts keyed by
strings as insertion-ordered association lists, and raised exceptions as
`Except String` results.
-/

namespace PRISMAgent

/-! ## Data model

Metadata values: scalars stored in a record's metadata mapping.  Python
compares numbers with numbers and strings with strings; a mixed-type
ordered comparison raises `TypeError`, while `==`/`!=` are total and
return `False`/`True` across types. -/

inductive MVal where
  | num (q : ℚ)
  | str (s : String)
deriving DecidableEq, Repr

abbrev Metadata := List (String × MVal)

/-- `metadata[key]` / `key in metadata` lookup (Python dict access). -/
def mdLookup (md : Metadata) (k : String) : Option MVal :=
  match md with
  | [] => none
  | (k2, v) :: rest => if k2 = k then some v else mdLookup rest k

/-- Python `x <= y` on metadata values: ordered comparison succeeds on
number/number and string/string, raises `TypeError` otherwise. -/
def MVal.pyLe : MVal → MVal → Except String Bool
  | .num a, .num b => .ok (decide (a ≤ b))
  | .str a, .str b => .ok (decide (a ≤ b))
  | _, _ => .error "TypeError: unorderable types"

/-- Python `x < y` on metadata values. -/
def MVal.pyLt : MVal → MVal → Except String Bool
  | .num a, .num b => .ok (decide (a < b))
  | .str a, .str b => .ok (decide (a < b))
  | _, _ => .error "TypeError: unorderable types"

/-- Python `x >= y` on metadata values. -/
def MVal.pyGe : MVal → MVal → Except String Bool
  | .num a, .num b => .ok (decide (b ≤ a))
  | .str a, .str b => .ok (decide (b ≤ a))
  | _, _ => .error "TypeError: unorderable types"

/-- Python `x > y` on metadata values. -/
def MVal.pyGt : MVal → MVal → Except String Bool
  | .num a, .num b => .ok (decide (b < a))
  | .str a, .str b => .ok (decide (b < a))
  | _, _ => .error "TypeError: unorderable types"

/-- Python `x == y` on metadata values: total, cross-type values are
simply unequal. -/
def MVal.pyEq (a b : MVal) : Bool := decide (a = b)

/-- A filter constraint for one metadata field: either a literal
(equality test) or an operator object `{op: value, ...}`. -/
inductive FilterCond where
  | lit (v : MVal)
  | ops (l : List (String × MVal))
deriving DecidableEq

/-- A filter expression: mapping from field name to constraint
(`filter_expr` in the source). -/
abbrev FilterExpr := List (String × FilterCond)

/-! ## Filter evaluator

`InMemoryVectorBackend._matches_filter`: iterates the filter's items;
an operator object is checked operator by operator, each failing check
returning `False` for the whole call; an unknown operator logs a warning
and returns `False`; a literal requires presence and equality.  A
`TypeError` raised by a comparison propagates to the caller (`query`). -/

/-- The inner `for op, op_value in value.items()` loop of
`_matches_filter`: returns `ok false` as soon as one operator check
fails, `ok true` if all pass, `error` if a comparison raises. -/
def checkOps (md : Metadata) (key : String) : List (String × MVal) → Except String Bool
  | [] => .ok true
  | (op, w) :: rest =>
    if op = "$gt" then
      match mdLookup md key with
      | none => .ok false
      | some x => do
        let c ← x.pyLe w
        if c then .ok false else checkOps md key rest
    else if op = "$gte" then
      match mdLookup md key with
      | none => .ok false
      | some x => do
        let c ← x.pyLt w
        if c then .ok false else checkOps md key rest
    else if op = "$lt" then
      match mdLookup md key with
      | none => .ok false
      | some x => do
        let c ← x.pyGe w
        if c then .ok false else checkOps md key rest
    else if op = "$lte" then
      match mdLookup md key with
      | none => .ok false
      | some x => do
        let c ← x.pyGt w
        if c then .ok false else checkOps md key rest
    else if op = "$ne" then
      match mdLookup md key with
      | none => checkOps md key rest
      | some x => if x.pyEq w then .ok false else checkOps md key rest
    else
      .ok false

/-- `InMemoryVectorBackend._matches_filter(metadata, filter_expr)`. -/
def matchesFilter (md : Metadata) : FilterExpr → Except String Bool
  | [] => .ok true
  | (key, cond) :: rest =>
    match cond with
    | .ops l => do
      let c ← checkOps md key l
      if c then matchesFilter md rest else .ok false
    | .lit v =>
      match mdLookup md key with
      | none => .ok false
      | some x => if x = v then matchesFilter md rest else .ok false

/-! ### Specification-side filter semantics (from the spec's words):
equality requires presence and equality; `$gt`/`$gte`/`$lt`/`$lte`
require presence and the numeric comparison; `$ne` holds when the field
is absent or unequal; top-level constraints are AND-combined. -/

/-- The operators the evaluator defines. -/
def knownOps : List String := ["$gt", "$gte", "$lt", "$lte", "$ne"]

/-- Spec semantics of a single operator constraint on a field. -/
def specOp (md : Metadata) (key op : String) (w : MVal) : Bool :=
  if op = "$gt" then
    match mdLookup md key, w with
    | some (.num x), .num b => decide (b < x)
    | _, _ => false
  else if op = "$gte" then
    match mdLookup md key, w with
    | some (.num x), .num b => decide (b ≤ x)
    | _, _ => false
  else if op = "$lt" then
    match mdLookup md key, w with
    | some (.num x), .num b => decide (x < b)
    | _, _ => false
  else if op = "$lte" then
    match mdLookup md key, w with
    | some (.num x), .num b => decide (x ≤ b)
    | _, _ => false
  else if op = "$ne" then
    match mdLookup md key with
    | none => true
    | some x => decide (x ≠ w)
  else
    false

/-- Spec semantics of one field constraint. -/
def specCond (md : Metadata) (key : String) : FilterCond → Bool
  | .lit v => decide (mdLookup md key = some v)
  | .ops l => l.all fun ow => specOp md key ow.1 ow.2

/-- Spec semantics of a whole filter expression: AND of all field
constraints. -/
def specMatches (md : Metadata) (f : FilterExpr) : Bool :=
  f.all fun kc => specCond md kc.1 kc.2

/-- `true` when a metadata value is a number. -/
def MVal.isNum : MVal → Bool
  | .num _ => true
  | .str _ => false

/-- A single operator entry is well formed for the given metadata: the
operator is a defined one, and the ordered comparisons are numeric
(operand and present field value are numbers). -/
def wellTypedOp (md : Metadata) (key op : String) (w : MVal) : Bool :=
  decide (op ∈ knownOps) &&
    (op == "$ne" ||
      (w.isNum &&
        (match mdLookup md key with
         | some x => x.isNum
         | none => true)))

/-- A filter expression uses only the defined forms on the given
metadata: every operator object entry is well typed. -/
def wellFormedFilter (md : Metadata) (f : FilterExpr) : Bool :=
  f.all fun kc =>
    match kc.2 with
    | .lit _ => true
    | .ops l => l.all fun ow => wellTypedOp md kc.1 ow.1 ow.2

/-- Does the filter expression contain an operator object with an
operator outside the defined set? -/
def hasUnknownOp (f : FilterExpr) : Bool :=
  f.any fun kc =>
    match kc.2 with
    | .lit _ => false
    | .ops l => l.any fun ow => decide (ow.1 ∉ knownOps)

/-! ### Filter evaluator lemmas -/

theorem mem_knownOps_iff (op : String) :
    op ∈ knownOps ↔ op = "$gt" ∨ op = "$gte" ∨ op = "$lt" ∨ op = "$lte" ∨ op = "$ne" := by
  simp [knownOps]

/-- Under well-typed operator entries the early-exit operator loop computes
exactly the AND of the spec-side operator predicates. -/
theorem checkOps_eq_spec (md : Metadata) (key : String) :
    ∀ l : List (String × MVal),
      (∀ ow ∈ l, wellTypedOp md key ow.1 ow.2 = true) →
      checkOps md key l = .ok (l.all fun ow => specOp md key ow.1 ow.2)
  | [], _ => by simp [checkOps]
  | (op, w) :: tail, h => by
    have hh := h (op, w) (List.mem_cons_self _ _)
    have ih := checkOps_eq_spec md key tail fun ow hw => h ow (List.mem_cons_of_mem _ hw)
    simp only [wellTypedOp, Bool.and_eq_true, decide_eq_true_eq] at hh
    obtain ⟨hmem, hty⟩ := hh
    rcases (mem_knownOps_iff op).mp hmem with hop | hop | hop | hop | hop
    · -- `$gt`: the check fails iff `x ≤ w`; the spec requires `w < x`
      subst hop
      simp only [Bool.or_eq_true, beq_iff_eq, Bool.and_eq_true] at hty
      rcases hty with hty | ⟨hwnum, hxnum⟩
      · exact absurd hty (by decide)
      rcases w with ⟨b⟩ | ⟨s⟩
      · rcases hmd : mdLookup md key with _ | x
        · simp [checkOps, hmd, specOp, List.all_cons]
        · rw [hmd] at hxnum
          rcases x with ⟨xq⟩ | ⟨xs⟩
          · by_cases hc : (xq : ℚ) ≤ b
            · simp [checkOps, Bind.bind, Except.bind, hmd, MVal.pyLe, hc, specOp, List.all_cons,
                not_lt_of_le hc]
            · simp [checkOps, Bind.bind, Except.bind, hmd, MVal.pyLe, hc, specOp, List.all_cons,
                lt_of_not_le hc, ih]
          · exact absurd hxnum (by simp [MVal.isNum])
      · exact absurd hwnum (by simp [MVal.isNum])
    · -- `$gte`: the check fails iff `x < w`; the spec requires `w ≤ x`
      subst hop
      simp only [Bool.or_eq_true, beq_iff_eq, Bool.and_eq_true] at hty
      rcases hty with hty | ⟨hwnum, hxnum⟩
      · exact absurd hty (by decide)
      rcases w with ⟨b⟩ | ⟨s⟩
      · rcases hmd : mdLookup md key with _ | x
        · simp [checkOps, hmd, specOp, List.all_cons]
        · rw [hmd] at hxnum
          rcases x with ⟨xq⟩ | ⟨xs⟩
          · by_cases hc : (xq : ℚ) < b
            · simp [checkOps, Bind.bind, Except.bind, hmd, MVal.pyLt, hc, specOp, List.all_cons,
                not_le_of_lt hc]
            · simp [checkOps, Bind.bind, Except.bind, hmd, MVal.pyLt, hc, specOp, List.all_cons,
                le_of_not_lt hc, ih]
          · exact absurd hxnum (by simp [MVal.isNum])
      · exact absurd hwnum (by simp [MVal.isNum])
    · -- `$lt`: the check fails iff `x >= w`; the spec requires `x < w`
      subst hop
      simp only [Bool.or_eq_true, beq_iff_eq, Bool.and_eq_true] at hty
      rcases hty with hty | ⟨hwnum, hxnum⟩
      · exact absurd hty (by decide)
      rcases w with ⟨b⟩ | ⟨s⟩
      · rcases hmd : mdLookup md key with _ | x
        · simp [checkOps, hmd, specOp, List.all_cons]
        · rw [hmd] at hxnum
          rcases x with ⟨xq⟩ | ⟨xs⟩
          · by_cases hc : (b : ℚ) ≤ xq
            · simp [checkOps, Bind.bind, Except.bind, hmd, MVal.pyGe, hc, specOp, List.all_cons,
                not_lt_of_le hc]
            · simp [checkOps, Bind.bind, Except.bind, hmd, MVal.pyGe, hc, specOp, List.all_cons,
                lt_of_not_le hc, ih]
          · exact absurd hxnum (by simp [MVal.isNum])
      · exact absurd hwnum (by simp [MVal.isNum])
    · -- `$lte`: the check fails iff `x > w`; the spec requires `x ≤ w`
      subst hop
      simp only [Bool.or_eq_true, beq_iff_eq, Bool.and_eq_true] at hty
      rcases hty with hty | ⟨hwnum, hxnum⟩
      · exact absurd hty (by decide)
      rcases w with ⟨b⟩ | ⟨s⟩
      · rcases hmd : mdLookup md key with _ | x
        · simp [checkOps, hmd, specOp, List.all_cons]
        · rw [hmd] at hxnum
          rcases x with ⟨xq⟩ | ⟨xs⟩
          · by_cases hc : (b : ℚ) < xq
            · simp [checkOps, Bind.bind, Except.bind, hmd, MVal.pyGt, hc, specOp, List.all_cons,
                not_le_of_lt hc]
            · simp [checkOps, Bind.bind, Except.bind, hmd, MVal.pyGt, hc, specOp, List.all_cons,
                le_of_not_lt hc, ih]
          · exact absurd hxnum (by simp [MVal.isNum])
      · exact absurd hwnum (by simp [MVal.isNum])
    · -- `$ne`: fails only when the field is present and equal
      subst hop
      rcases hmd : mdLookup md key with _ | x
      · simp [checkOps, hmd, specOp, List.all_cons, ih]
      · by_cases he : x = w
        · simp [checkOps, Bind.bind, Except.bind, hmd, specOp, List.all_cons, MVal.pyEq, he]
        · simp [checkOps, Bind.bind, Except.bind, hmd, specOp, List.all_cons, MVal.pyEq, he, ih]

/-- If one of the operator checks steps into the comparison bind, the
whole loop result is `ok true` only when the comparison succeeded with
`false` and the rest of the loop also reports `ok true`. -/
theorem bindStep_ok_true {cmp rest : Except String Bool}
    (h : (do
            let c ← cmp
            if c then Except.ok false else rest) = Except.ok true) :
    rest = Except.ok true := by
  rcases cmp with e | c
  · simp [Bind.bind, Except.bind] at h
  · simp only [Bind.bind, Except.bind] at h
    by_cases hc : c = true
    · rw [if_pos hc] at h
      exact absurd h (by simp)
    · rwa [if_neg hc] at h

/-- If the operator loop reports an overall pass, every operator it
contains is a defined one (the unknown-operator branch returns `False`). -/
theorem checkOps_ok_true_known (md : Metadata) (key : String) :
    ∀ l : List (String × MVal), checkOps md key l = .ok true →
      ∀ ow ∈ l, ow.1 ∈ knownOps
  | [], _, ow, hw => absurd hw (List.not_mem_nil ow)
  | (op, w) :: tail, h, ow, hw => by
    have step : checkOps md key tail = .ok true → ∀ ow ∈ tail, ow.1 ∈ knownOps :=
      checkOps_ok_true_known md key tail
    -- first: an unknown head operator contradicts `h` outright
    by_cases hk : op ∈ knownOps
    case neg =>
      rw [mem_knownOps_iff] at hk
      push_neg at hk
      obtain ⟨h1, h2, h3, h4, h5⟩ := hk
      simp only [checkOps, h1, h2, h3, h4, h5, if_false, reduceIte] at h
      exact absurd h (by simp)
    case pos =>
      have htail : checkOps md key tail = .ok true := by
        rcases (mem_knownOps_iff op).mp hk with hop | hop | hop | hop | hop <;>
          subst hop <;>
          simp only [checkOps, String.reduceEq, if_true, if_false, reduceIte] at h <;>
          rcases hmd : mdLookup md key with _ | x <;> rw [hmd] at h
        · simp at h
        · exact bindStep_ok_true h
        · simp at h
        · exact bindStep_ok_true h
        · simp at h
        · exact bindStep_ok_true h
        · simp at h
        · exact bindStep_ok_true h
        · exact h
        · have h2 : (if x.pyEq w = true then Except.ok false
              else checkOps md key tail) = Except.ok true := h
          by_cases he : x.pyEq w = true
          · rw [if_pos he] at h2
            exact absurd h2 (by simp)
          · rwa [if_neg he] at h2
      rcases List.mem_cons.mp hw with hh | ht
      · subst hh; exact hk
      · exact step htail ow ht

/-- On well-formed filters the early-exit evaluator computes exactly the
declarative AND semantics. -/
theorem matchesFilter_eq_spec (md : Metadata) :
    ∀ f : FilterExpr, wellFormedFilter md f = true →
      matchesFilter md f = .ok (specMatches md f)
  | [], _ => by simp [matchesFilter, specMatches]
  | (key, cond) :: rest, h => by
    simp only [wellFormedFilter, List.all_cons, Bool.and_eq_true] at h
    obtain ⟨hhead, hrest⟩ := h
    have ih := matchesFilter_eq_spec md rest (by simpa [wellFormedFilter] using hrest)
    cases cond with
    | lit v =>
      rcases hmd : mdLookup md key with _ | x
      · simp [matchesFilter, hmd, specMatches, specCond, List.all_cons]
      · by_cases he : x = v
        · subst he
          simp [matchesFilter, hmd, specMatches, specCond, List.all_cons, ih]
        · simp [matchesFilter, hmd, he, specMatches, specCond, List.all_cons,
            Ne.symm he]
    | ops l =>
      have hl : ∀ ow ∈ l, wellTypedOp md key ow.1 ow.2 = true := by
        simpa [List.all_eq_true] using hhead
      simp only [matchesFilter, checkOps_eq_spec md key l hl, Bind.bind, Except.bind]
      by_cases hc : (l.all fun ow => specOp md key ow.1 ow.2) = true
      · simp [hc, ih, specMatches, specCond, List.all_cons]
      · simp [hc, specMatches, specCond, List.all_cons,
          Bool.eq_false_iff.mpr hc]

/-- If the whole evaluator reports a match, every operator object in the
filter passed its loop. -/
theorem matchesFilter_ok_true_ops (md : Metadata) :
    ∀ f : FilterExpr, matchesFilter md f = .ok true →
      ∀ kc ∈ f, ∀ l, kc.2 = FilterCond.ops l → checkOps md kc.1 l = .ok true
  | [], _, kc, hkc => absurd hkc (List.not_mem_nil kc)
  | (key, cond) :: rest, h, kc, hkc => by
    cases cond with
    | lit v =>
      have ht : matchesFilter md rest = .ok true := by
        simp only [matchesFilter] at h
        rcases hmd : mdLookup md key with _ | x <;> rw [hmd] at h
        · exact absurd h (by simp)
        · have h2 : (if x = v then matchesFilter md rest
              else Except.ok false) = Except.ok true := h
          by_cases he : x = v
          · rwa [if_pos he] at h2
          · rw [if_neg he] at h2
            exact absurd h2 (by simp)
      rcases List.mem_cons.mp hkc with hh | hmem
      · subst hh
        intro l hl
        exact absurd hl (by simp)
      · exact matchesFilter_ok_true_ops md rest ht kc hmem
    | ops l0 =>
      have hck : checkOps md key l0 = .ok true ∧ matchesFilter md rest = .ok true := by
        simp only [matchesFilter] at h
        rcases hc : checkOps md key l0 with e | c <;> rw [hc] at h
        · simp [Bind.bind, Except.bind] at h
        · simp only [Bind.bind, Except.bind] at h
          by_cases hb : c = true
          · subst hb
            rw [if_pos rfl] at h
            exact ⟨rfl, h⟩
          · rw [if_neg hb] at h
            exact absurd h (by simp)
      rcases List.mem_cons.mp hkc with hh | hmem
      · subst hh
        intro l hl
        obtain rfl : l0 = l := FilterCond.ops.inj hl
        exact hck.1
      · exact matchesFilter_ok_true_ops md rest hck.2 kc hmem

/-- C4: for every metadata map and filter expression using only the
defined forms (known operators, numeric ordered comparisons), the
evaluator matches exactly when every top-level field constraint matches:
a literal requires presence and equality, `$gt`/`$gte`/`$lt`/`$lte`
require presence and the numeric comparison, `$ne` holds when the field
is absent or unequal, and the constraints are AND-combined. -/
theorem matchesFilter_refines_spec (md : Metadata) (f : FilterExpr)
    (h : wellFormedFilter md f = true) :
    matchesFilter md f = .ok (specMatches md f) :=
  matchesFilter_eq_spec md f h

/-- Witness for C4 on a concrete metadata map and filter. -/
theorem matchesFilter_refines_spec_witness :
    wellFormedFilter [("importance", MVal.num 5), ("category", MVal.str "A")]
        [("importance", FilterCond.ops [("$gte", MVal.num 4), ("$ne", MVal.num 9)]),
         ("category", FilterCond.lit (MVal.str "A"))] = true ∧
      matchesFilter [("importance", MVal.num 5), ("category", MVal.str "A")]
        [("importance", FilterCond.ops [("$gte", MVal.num 4), ("$ne", MVal.num 9)]),
         ("category", FilterCond.lit (MVal.str "A"))] =
        .ok (specMatches [("importance", MVal.num 5), ("category", MVal.str "A")]
          [("importance", FilterCond.ops [("$gte", MVal.num 4), ("$ne", MVal.num 9)]),
           ("category", FilterCond.lit (MVal.str "A"))]) :=
  ⟨by decide, matchesFilter_refines_spec _ _ (by decide)⟩

/-- C5: a filter expression containing an operator object with an
operator outside the defined set never matches any metadata: unknown
operators fail closed. -/
theorem unknownOp_fails_closed (f : FilterExpr) (h : hasUnknownOp f = true) :
    ∀ md : Metadata, matchesFilter md f ≠ .ok true := by
  intro md hm
  simp only [hasUnknownOp, List.any_eq_true] at h
  obtain ⟨kc, hkcf, hkc⟩ := h
  rcases kc with ⟨key, cond⟩
  cases cond with
  | lit v => simp at hkc
  | ops l =>
    simp only [List.any_eq_true, decide_eq_true_eq] at hkc
    obtain ⟨ow, howl, hunk⟩ := hkc
    exact hunk (checkOps_ok_true_known md key l
      (matchesFilter_ok_true_ops md f hm (key, FilterCond.ops l) hkcf l rfl) ow howl)

/-- Witness for C5: a concrete unknown-operator filter is rejected on a
metadata map that would satisfy the rest of the filter. -/
theorem unknownOp_fails_closed_witness :
    hasUnknownOp [("x", FilterCond.ops [("$foo", MVal.num 1)])] = true ∧
      matchesFilter [("x", MVal.num 1)]
        [("x", FilterCond.ops [("$foo", MVal.num 1)])] ≠ .ok true :=
  ⟨by decide, unknownOp_fails_closed _ (by decide) _⟩

/-! ## The in-memory record store

`InMemoryVectorBackend.self.vectors` is a Python dict keyed by record id,
modelled as an insertion-ordered association list with unique keys:
assigning an existing key updates it in place, assigning a fresh key
appends. -/

/-- One stored record (the `{"id", "vector", "metadata"}` dict minus its
id, which is the store key). -/
structure VectorRecord where
  vector : List ℚ
  metadata : Metadata
deriving DecidableEq

abbrev Store := List (String × VectorRecord)

/-- Python dict assignment `d[id] = r`: update in place or append. -/
def dictInsert : Store → String → VectorRecord → Store
  | [], id, r => [(id, r)]
  | (k, v) :: rest, id, r =>
    if k = id then (k, r) :: rest else (k, v) :: dictInsert rest id r

/-- Python dict read `d.get(id)`. -/
def dictGet : Store → String → Option VectorRecord
  | [], _ => none
  | (k, v) :: rest, id => if k = id then some v else dictGet rest id

/-- Python dict removal `del d[id]` (for a present key). -/
def dictRemove : Store → String → Store
  | [], _ => []
  | (k, v) :: rest, id => if k = id then rest else (k, v) :: dictRemove rest id

/-- The store's keys in insertion order. -/
def keys (st : Store) : List String := st.map Prod.fst

namespace InMemoryVectorBackend

/-- `InMemoryVectorBackend.upsert`: stores `{"id": id, "vector": vector,
"metadata": metadata or {}}` under `id` and returns `True`; the
`except` branch is unreachable (dict assignment cannot raise). -/
def upsert (st : Store) (id : String) (vector : List ℚ) (metadata : Metadata) :
    Bool × Store :=
  (true, dictInsert st id ⟨vector, metadata⟩)

/-- `InMemoryVectorBackend.get`: `self.vectors.get(id)`. -/
def get (st : Store) (id : String) : Option VectorRecord :=
  dictGet st id

/-- `InMemoryVectorBackend.delete`: `if id in self.vectors: del ...;
return True` else `return False`. -/
def delete (st : Store) (id : String) : Bool × Store :=
  if (dictGet st id).isSome then (true, dictRemove st id) else (false, st)

end InMemoryVectorBackend

/-! ### Dict lemmas -/

@[simp] theorem dictInsert_nil (id : String) (r : VectorRecord) :
    dictInsert [] id r = [(id, r)] := rfl

@[simp] theorem dictInsert_cons (k : String) (v : VectorRecord) (rest : Store)
    (id : String) (r : VectorRecord) :
    dictInsert ((k, v) :: rest) id r =
      if k = id then (k, r) :: rest else (k, v) :: dictInsert rest id r := rfl

@[simp] theorem dictGet_nil (id : String) : dictGet [] id = none := rfl

@[simp] theorem dictGet_cons (k : String) (v : VectorRecord) (rest : Store)
    (id : String) :
    dictGet ((k, v) :: rest) id = if k = id then some v else dictGet rest id := rfl

@[simp] theorem dictRemove_nil (id : String) : dictRemove [] id = [] := rfl

@[simp] theorem dictRemove_cons (k : String) (v : VectorRecord) (rest : Store)
    (id : String) :
    dictRemove ((k, v) :: rest) id =
      if k = id then rest else (k, v) :: dictRemove rest id := rfl

@[simp] theorem keys_nil : keys [] = [] := rfl

@[simp] theorem keys_cons (k : String) (v : VectorRecord) (rest : Store) :
    keys ((k, v) :: rest) = k :: keys rest := rfl

theorem dictGet_dictInsert_self (st : Store) (id : String) (r : VectorRecord) :
    dictGet (dictInsert st id r) id = some r := by
  induction st with
  | nil => simp
  | cons p rest ih =>
    obtain ⟨k, v⟩ := p
    by_cases hk : k = id
    · simp [hk]
    · simp [hk, ih]

theorem dictGet_dictInsert_other (st : Store) (id k : String) (r : VectorRecord)
    (hk : k ≠ id) : dictGet (dictInsert st id r) k = dictGet st k := by
  have hik : ¬ id = k := fun h => hk h.symm
  induction st with
  | nil => simp [hik]
  | cons p rest ih =>
    obtain ⟨k2, v⟩ := p
    by_cases h2 : k2 = id
    · subst h2
      simp [hik]
    · simp [h2, ih]

theorem dictInsert_idem (st : Store) (id : String) (r : VectorRecord) :
    dictInsert (dictInsert st id r) id r = dictInsert st id r := by
  induction st with
  | nil => simp
  | cons p rest ih =>
    obtain ⟨k, v⟩ := p
    by_cases hk : k = id
    · simp [hk]
    · simp [hk, ih]

theorem keys_dictInsert (st : Store) (id : String) (r : VectorRecord) :
    keys (dictInsert st id r) = if id ∈ keys st then keys st else keys st ++ [id] := by
  induction st with
  | nil => simp
  | cons p rest ih =>
    obtain ⟨k, v⟩ := p
    by_cases hk : k = id
    · subst hk
      simp
    · have hik : ¬ id = k := fun h => hk h.symm
      simp only [dictInsert_cons, hk, if_false, reduceIte, keys_cons, ih,
        List.mem_cons, hik, false_or]
      by_cases hm : id ∈ keys rest
      · simp [hm]
      · simp [hm]

theorem keys_toFinset_dictInsert (st : Store) (id : String) (r : VectorRecord) :
    (keys (dictInsert st id r)).toFinset = insert id (keys st).toFinset := by
  rw [keys_dictInsert]
  by_cases hm : id ∈ keys st
  · simp only [hm, if_true, reduceIte]
    exact (Finset.insert_eq_self.mpr (List.mem_toFinset.mpr hm)).symm
  · simp only [hm, if_false, reduceIte, List.toFinset_append, List.toFinset_cons,
      List.toFinset_nil, insert_emptyc_eq]
    rw [Finset.union_comm, ← Finset.insert_eq]

theorem nodup_keys_dictInsert (st : Store) (id : String) (r : VectorRecord)
    (h : (keys st).Nodup) : (keys (dictInsert st id r)).Nodup := by
  rw [keys_dictInsert]
  by_cases hm : id ∈ keys st
  · simpa [hm] using h
  · simp only [hm, if_false, reduceIte]
    exact List.Nodup.append h (List.nodup_singleton id) (by simpa using hm)

theorem dictGet_isSome_iff_mem_keys (st : Store) (id : String) :
    (dictGet st id).isSome = true ↔ id ∈ keys st := by
  induction st with
  | nil => simp
  | cons p rest ih =>
    obtain ⟨k, v⟩ := p
    by_cases hk : k = id
    · simp [hk]
    · have hik : ¬ id = k := fun h => hk h.symm
      simp [hk, hik, ih]

theorem dictGet_dictRemove_self (st : Store) (id : String)
    (h : (keys st).Nodup) : dictGet (dictRemove st id) id = none := by
  induction st with
  | nil => simp
  | cons p rest ih =>
    obtain ⟨k, v⟩ := p
    simp only [keys_cons, List.nodup_cons] at h
    by_cases hk : k = id
    · subst hk
      simp only [dictRemove_cons, if_pos rfl]
      rcases hg : dictGet rest k with _ | r2
      · simp [hg]
      · exact absurd ((dictGet_isSome_iff_mem_keys rest k).mp (by simp [hg])) h.1
    · simp only [dictRemove_cons, hk, if_false, reduceIte, dictGet_cons]
      exact ih h.2

theorem dictGet_dictRemove_other (st : Store) (id k : String) (hk : k ≠ id) :
    dictGet (dictRemove st id) k = dictGet st k := by
  induction st with
  | nil => simp
  | cons p rest ih =>
    obtain ⟨k2, v⟩ := p
    by_cases h2 : k2 = id
    · subst h2
      have : ¬ k2 = k := fun h => hk (h.symm.trans rfl)
      simp [this]
    · simp [h2, ih]

theorem length_dictRemove (st : Store) (id : String)
    (h : (dictGet st id).isSome = true) :
    (dictRemove st id).length + 1 = st.length := by
  induction st with
  | nil => simp at h
  | cons p rest ih =>
    obtain ⟨k, v⟩ := p
    by_cases hk : k = id
    · simp [hk]
    · simp only [dictGet_cons, hk, if_false, reduceIte] at h
      simp [hk, ih h]

/-! ### Upsert sequences -/

/-- Apply a sequence of upserts (id, vector, metadata) left to right. -/
def applyUpserts (st : Store) (ops : List (String × List ℚ × Metadata)) : Store :=
  ops.foldl (fun s o => (InMemoryVectorBackend.upsert s o.1 o.2.1 o.2.2).2) st

theorem keys_toFinset_applyUpserts (ops : List (String × List ℚ × Metadata)) :
    ∀ st : Store, (keys (applyUpserts st ops)).toFinset =
      (keys st).toFinset ∪ (ops.map Prod.fst).toFinset := by
  induction ops with
  | nil => simp [applyUpserts]
  | cons o rest ih =>
    intro st
    have step : applyUpserts st (o :: rest) =
        applyUpserts (dictInsert st o.1 ⟨o.2.1, o.2.2⟩) rest := rfl
    rw [step, ih, keys_toFinset_dictInsert]
    simp only [List.map_cons, List.toFinset_cons]
    rw [Finset.insert_union, Finset.union_insert]

theorem nodup_keys_applyUpserts (ops : List (String × List ℚ × Metadata)) :
    ∀ st : Store, (keys st).Nodup → (keys (applyUpserts st ops)).Nodup := by
  induction ops with
  | nil => exact fun st h => h
  | cons o rest ih =>
    intro st h
    exact ih _ (nodup_keys_dictInsert st o.1 ⟨o.2.1, o.2.2⟩ h)

/-- C6: upsert is idempotent by id (re-upserting the same record leaves
the store contents unchanged), and after any sequence of upserts into an
initially empty store the number of stored records equals the number of
distinct upserted ids. -/
theorem upsert_idempotent_and_distinct_count :
    (∀ (st : Store) (id : String) (v : List ℚ) (m : Metadata),
        (InMemoryVectorBackend.upsert
            (InMemoryVectorBackend.upsert st id v m).2 id v m).2 =
          (InMemoryVectorBackend.upsert st id v m).2) ∧
      (∀ ops : List (String × List ℚ × Metadata),
        (applyUpserts [] ops).length = (ops.map Prod.fst).toFinset.card) :=
  ⟨fun st id v m => dictInsert_idem st id ⟨v, m⟩,
   fun ops => by
     have hnd : (keys (applyUpserts [] ops)).Nodup :=
       nodup_keys_applyUpserts ops [] (by simp)
     have hlen : (applyUpserts [] ops).length = (keys (applyUpserts [] ops)).length :=
       (List.length_map _ _).symm
     rw [hlen, ← List.toFinset_card_of_nodup hnd,
       keys_toFinset_applyUpserts ops []]
     simp⟩

/-- C1 (counterexample): the claim says an upsert with an empty vector
returns `false` and leaves the store unchanged; on the code it returns
`true` and inserts the record. -/
theorem upsert_validation_counterexample :
    ¬ ((InMemoryVectorBackend.upsert [] "a" [] []).1 = false ∧
        (InMemoryVectorBackend.upsert [] "a" [] []).2 = []) := by
  decide

/-- C1 (amended): upsert never validates its vector: for every store,
id, vector (including the empty vector or one of any length) and
metadata, it returns `true`, stores the record under `id`, and leaves
every other id's record unchanged. -/
theorem upsert_always_succeeds (st : Store) (id : String) (v : List ℚ)
    (m : Metadata) :
    (InMemoryVectorBackend.upsert st id v m).1 = true ∧
      InMemoryVectorBackend.get (InMemoryVectorBackend.upsert st id v m).2 id =
        some ⟨v, m⟩ ∧
      ∀ k, k ≠ id →
        InMemoryVectorBackend.get (InMemoryVectorBackend.upsert st id v m).2 k =
          InMemoryVectorBackend.get st k :=
  ⟨rfl, dictGet_dictInsert_self st id ⟨v, m⟩,
   fun k hk => dictGet_dictInsert_other st id k ⟨v, m⟩ hk⟩

/-- Witness for the amended C1: a concrete upsert with an empty vector
succeeds, stores the record and preserves the other record. -/
theorem upsert_always_succeeds_witness :
    (InMemoryVectorBackend.upsert [("b", ⟨[1], []⟩)] "a" [] []).1 = true ∧
      InMemoryVectorBackend.get
        (InMemoryVectorBackend.upsert [("b", ⟨[1], []⟩)] "a" [] []).2 "a" =
        some ⟨[], []⟩ ∧
      InMemoryVectorBackend.get
        (InMemoryVectorBackend.upsert [("b", ⟨[1], []⟩)] "a" [] []).2 "b" =
        some ⟨[1], []⟩ := by
  obtain ⟨h1, h2, h3⟩ := upsert_always_succeeds [("b", ⟨[1], []⟩)] "a" [] []
  exact ⟨h1, h2, by rw [h3 "b" (by decide)]; decide⟩

/-- C7: delete on a present id returns `true`, removes exactly that
record (its lookup becomes not-found, every other lookup is unchanged,
the record count drops by one); delete on an absent id returns `false`
and leaves the store unchanged. -/
theorem delete_spec (st : Store) (id : String) (h : (keys st).Nodup) :
    ((dictGet st id).isSome = true →
        (InMemoryVectorBackend.delete st id).1 = true ∧
          InMemoryVectorBackend.get (InMemoryVectorBackend.delete st id).2 id =
            none ∧
          (∀ k, k ≠ id →
            InMemoryVectorBackend.get (InMemoryVectorBackend.delete st id).2 k =
              InMemoryVectorBackend.get st k) ∧
          (InMemoryVectorBackend.delete st id).2.length + 1 = st.length) ∧
      ((dictGet st id).isSome = false →
        InMemoryVectorBackend.delete st id = (false, st)) := by
  constructor
  · intro hs
    refine ⟨?_, ?_, ?_, ?_⟩
    · simp [InMemoryVectorBackend.delete, hs]
    · simp only [InMemoryVectorBackend.delete, hs, if_true, reduceIte]
      exact dictGet_dictRemove_self st id h
    · intro k hk
      simp only [InMemoryVectorBackend.delete, hs, if_true, reduceIte]
      exact dictGet_dictRemove_other st id k hk
    · simp only [InMemoryVectorBackend.delete, hs, if_true, reduceIte]
      exact length_dictRemove st id hs
  · intro hn
    simp [InMemoryVectorBackend.delete, hn]

/-- Witness for C7 on a concrete two-record store: deleting a present id
succeeds and removes only that record; deleting an absent id is a no-op
returning `false`. -/
theorem delete_spec_witness :
    (InMemoryVectorBackend.delete [("a", ⟨[1], []⟩), ("b", ⟨[2], []⟩)] "a").1 =
        true ∧
      InMemoryVectorBackend.get
        (InMemoryVectorBackend.delete
          [("a", ⟨[1], []⟩), ("b", ⟨[2], []⟩)] "a").2 "a" = none ∧
      InMemoryVectorBackend.get
        (InMemoryVectorBackend.delete
          [("a", ⟨[1], []⟩), ("b", ⟨[2], []⟩)] "a").2 "b" = some ⟨[2], []⟩ ∧
      InMemoryVectorBackend.delete [("a", ⟨[1], []⟩), ("b", ⟨[2], []⟩)] "c" =
        (false, [("a", ⟨[1], []⟩), ("b", ⟨[2], []⟩)]) := by
  obtain ⟨hp, _⟩ := delete_spec [("a", ⟨[1], []⟩), ("b", ⟨[2], []⟩)] "a" (by decide)
  obtain ⟨h1, h2, h3, _⟩ := hp (by decide)
  obtain ⟨_, hq⟩ := delete_spec [("a", ⟨[1], []⟩), ("b", ⟨[2], []⟩)] "c" (by decide)
  exact ⟨h1, h2, by rw [h3 "b" (by decide)]; decide, hq (by decide)⟩

/-! ## Similarity scorer

`InMemoryVectorBackend._cosine_similarity`: checks dimensions (raising
`ValueError` on mismatch), computes the dot product over `zip`, the two
magnitudes via `** 0.5`, returns `0` if either magnitude is zero, and
otherwise the quotient.  Float arithmetic is modelled exactly: rational
inputs, real square roots and quotients. -/

/-- `sum(a * b for a, b in zip(v1, v2))`. -/
def dotProduct (v1 v2 : List ℚ) : ℚ :=
  ((v1.zip v2).map fun p => p.1 * p.2).sum

/-- `sum(a * a for a in v)`. -/
def sumSquares (v : List ℚ) : ℚ :=
  (v.map fun a => a * a).sum

/-- `sum(a * a for a in v) ** 0.5`. -/
noncomputable def magnitude (v : List ℚ) : ℝ :=
  Real.sqrt ((sumSquares v : ℚ) : ℝ)

open Classical in
/-- `InMemoryVectorBackend._cosine_similarity(v1, v2)`. -/
noncomputable def cosineSimilarity (v1 v2 : List ℚ) : Except String ℝ :=
  if v1.length = v2.length then
    if magnitude v1 = 0 ∨ magnitude v2 = 0 then .ok 0
    else .ok ((dotProduct v1 v2 : ℚ) / (magnitude v1 * magnitude v2))
  else .error "Vector dimensions don't match"

/-! ### Spec-side mathematical forms: the dot product and Euclidean norm
as indexed sums. -/

/-- `dot(a, b)` as the mathematical indexed sum. -/
noncomputable def dotSpec (a b : List ℚ) : ℝ :=
  ∑ i ∈ Finset.range (min a.length b.length), (a.getD i 0 : ℝ) * (b.getD i 0 : ℝ)

/-- The Euclidean norm `|a|` as the square root of the indexed sum of
squares. -/
noncomputable def normSpec (a : List ℚ) : ℝ :=
  Real.sqrt (∑ i ∈ Finset.range a.length, (a.getD i 0 : ℝ) ^ 2)

theorem dotProduct_eq_dotSpec : ∀ a b : List ℚ, ((dotProduct a b : ℚ) : ℝ) = dotSpec a b
  | [], b => by simp [dotProduct, dotSpec]
  | a0 :: as, [] => by simp [dotProduct, dotSpec]
  | a0 :: as, b0 :: bs => by
    have ih := dotProduct_eq_dotSpec as bs
    simp only [dotProduct, List.zip_cons_cons, List.map_cons, List.sum_cons,
      dotSpec, List.length_cons] at ih ⊢
    rw [show min (as.length + 1) (bs.length + 1) = min as.length bs.length + 1 by
      omega]
    rw [Finset.sum_range_succ']
    push_cast
    simp only [List.getD_cons_succ, List.getD_cons_zero]
    rw [← ih]
    simp [dotProduct]
    ring

theorem sumSquares_eq_sumSpec : ∀ a : List ℚ,
    ((sumSquares a : ℚ) : ℝ) = ∑ i ∈ Finset.range a.length, (a.getD i 0 : ℝ) ^ 2
  | [] => by simp [sumSquares]
  | a0 :: as => by
    have ih := sumSquares_eq_sumSpec as
    simp only [sumSquares, List.map_cons, List.sum_cons, List.length_cons]
    rw [Finset.sum_range_succ']
    push_cast
    simp only [List.getD_cons_succ, List.getD_cons_zero]
    rw [← ih]
    simp [sumSquares]
    ring

theorem magnitude_eq_normSpec (a : List ℚ) : magnitude a = normSpec a := by
  rw [magnitude, normSpec, sumSquares_eq_sumSpec]

theorem sumSquares_nonneg (a : List ℚ) : 0 ≤ sumSquares a := by
  induction a with
  | nil => simp [sumSquares]
  | cons a0 as ih =>
    simp only [sumSquares, List.map_cons, List.sum_cons]
    have : 0 ≤ a0 * a0 := mul_self_nonneg a0
    simp only [sumSquares] at ih
    nlinarith

theorem normSpec_eq_zero_iff (a : List ℚ) : normSpec a = 0 ↔ sumSquares a = 0 := by
  rw [← magnitude_eq_normSpec, magnitude,
    Real.sqrt_eq_zero (by exact_mod_cast sumSquares_nonneg a)]
  exact_mod_cast Iff.rfl

/-- C2: for vectors of equal length the scorer returns
`dot(a,b) / (|a| * |b|)` when both Euclidean norms are nonzero and
exactly `0` when either norm is zero (never a division error); for
vectors of different lengths it raises instead of returning a score. -/
theorem cosineSimilarity_spec (a b : List ℚ) :
    (a.length = b.length → normSpec a ≠ 0 → normSpec b ≠ 0 →
        cosineSimilarity a b = .ok (dotSpec a b / (normSpec a * normSpec b))) ∧
      (a.length = b.length → (normSpec a = 0 ∨ normSpec b = 0) →
        cosineSimilarity a b = .ok 0) ∧
      (a.length ≠ b.length →
        cosineSimilarity a b = .error "Vector dimensions don't match") := by
  refine ⟨?_, ?_, ?_⟩
  · intro hl ha hb
    rw [cosineSimilarity, if_pos hl, if_neg (by
      rw [magnitude_eq_normSpec, magnitude_eq_normSpec]
      tauto)]
    rw [dotProduct_eq_dotSpec, magnitude_eq_normSpec, magnitude_eq_normSpec]
  · intro hl hz
    rw [cosineSimilarity, if_pos hl, if_pos (by
      rw [magnitude_eq_normSpec, magnitude_eq_normSpec]
      tauto)]
  · intro hl
    rw [cosineSimilarity, if_neg hl]

/-- Witness for C2: a concrete equal-length pair with nonzero norms. -/
theorem cosineSimilarity_spec_witness :
    cosineSimilarity [3, 4] [4, 3] =
      .ok (dotSpec [3, 4] [4, 3] / (normSpec [3, 4] * normSpec [4, 3])) :=
  (cosineSimilarity_spec [3, 4] [4, 3]).1 rfl
    (fun h => absurd ((normSpec_eq_zero_iff [3, 4]).mp h) (by norm_num [sumSquares]))
    (fun h => absurd ((normSpec_eq_zero_iff [4, 3]).mp h) (by norm_num [sumSquares]))

/-! ## Query

`InMemoryVectorBackend.query`: scans the store in insertion order,
skips records failing a (truthy) filter, scores the rest, sorts by score
descending (Python's stable sort) and returns the top `k`.  Any exception
raised inside the loop is caught and turns the whole result into
`{"matches": []}`. -/

/-- One entry of the returned `matches` list. -/
structure MatchResult where
  id : String
  score : ℝ
  metadata : Metadata

/-- Python truthiness of the `filter_expr` argument: `None` and the
empty dict are falsy. -/
def filterActive (f : Option FilterExpr) : Bool :=
  match f with
  | none => false
  | some fe => !fe.isEmpty

/-- The record-scan loop of `query`, with exception propagation:
`if filter_expr and not self._matches_filter(...): continue`, then
score and append. -/
noncomputable def queryScan (v : List ℚ) (f : Option FilterExpr) :
    Store → Except String (List MatchResult)
  | [] => .ok []
  | (id, r) :: rest => do
    let skip ←
      if filterActive f then do
        let mt ← matchesFilter r.metadata (f.getD [])
        pure (!mt)
      else
        pure false
    if skip then
      queryScan v f rest
    else do
      let s ← cosineSimilarity v r.vector
      let tl ← queryScan v f rest
      pure (⟨id, s, r.metadata⟩ :: tl)

/-- The comparison `results.sort(key=lambda x: x["score"], reverse=True)`
sorts by: `a` before `b` when `a`'s score is at least `b`'s. -/
def scoreGe (a b : MatchResult) : Prop := b.score ≤ a.score

noncomputable instance : DecidableRel scoreGe :=
  fun a b => Real.decidableLE b.score a.score

instance : IsTotal MatchResult scoreGe :=
  ⟨fun a b => le_total b.score a.score⟩

instance : IsTrans MatchResult scoreGe :=
  ⟨fun _ _ _ h1 h2 => le_trans h2 h1⟩

/-- `InMemoryVectorBackend.query(vector, k, filter_expr)`: the
`matches` list.  Python's stable descending sort is modelled by
insertion sort under `scoreGe` (stable sorts by the same key order are
extensionally equal). -/
noncomputable def query (st : Store) (v : List ℚ) (k : ℕ)
    (f : Option FilterExpr) : List MatchResult :=
  match queryScan v f st with
  | .ok results => (List.insertionSort scoreGe results).take k
  | .error _ => []

/-- Does a record pass the (possibly falsy) filter? -/
def passesFilterB (f : Option FilterExpr) (r : VectorRecord) : Bool :=
  if filterActive f then
    match matchesFilter r.metadata (f.getD []) with
    | .ok true => true
    | _ => false
  else
    true

open Classical in
/-- The score `_cosine_similarity` produces when dimensions match. -/
noncomputable def cosineValue (v1 v2 : List ℚ) : ℝ :=
  if magnitude v1 = 0 ∨ magnitude v2 = 0 then 0
  else (dotProduct v1 v2 : ℚ) / (magnitude v1 * magnitude v2)

/-- The unsorted scored list: filter-passing records in insertion order
with their scores. -/
noncomputable def scoredList (v : List ℚ) (f : Option FilterExpr) (st : Store) :
    List MatchResult :=
  (st.filter fun p => passesFilterB f p.2).map
    fun p => ⟨p.1, cosineValue v p.2.vector, p.2.metadata⟩

theorem cosineSimilarity_ok_of_length_eq (v1 v2 : List ℚ)
    (h : v1.length = v2.length) :
    cosineSimilarity v1 v2 = .ok (cosineValue v1 v2) := by
  rw [cosineSimilarity, if_pos h, cosineValue]
  by_cases hz : magnitude v1 = 0 ∨ magnitude v2 = 0
  · rw [if_pos hz, if_pos hz]
  · rw [if_neg hz, if_neg hz]

/-- When every scanned record's filter check returns cleanly and every
filter-passing record's dimension matches the query vector, the scan
succeeds and produces exactly the scored list. -/
theorem queryScan_ok (v : List ℚ) (f : Option FilterExpr) :
    ∀ st : Store,
      (∀ p ∈ st, filterActive f = true →
        ∃ b, matchesFilter p.2.metadata (f.getD []) = .ok b) →
      (∀ p ∈ st, passesFilterB f p.2 = true → p.2.vector.length = v.length) →
      queryScan v f st = .ok (scoredList v f st)
  | [], _, _ => by simp [queryScan, scoredList]
  | (id, r) :: rest, Hf, Hd => by
    have ihr := queryScan_ok v f rest
      (fun q hq => Hf q (List.mem_cons_of_mem _ hq))
      (fun q hq => Hd q (List.mem_cons_of_mem _ hq))
    by_cases hact : filterActive f = true
    · obtain ⟨b, hb⟩ := Hf (id, r) (List.mem_cons_self _ _) hact
      cases b with
      | true =>
        have hpass : passesFilterB f r = true := by
          simp [passesFilterB, hact, hb]
        have hlen : r.vector.length = v.length :=
          Hd (id, r) (List.mem_cons_self _ _) hpass
        rw [queryScan]
        simp only [hact, if_true, reduceIte, hb, Bind.bind, Except.bind,
          Pure.pure, Except.pure, Bool.not_true, if_false, Bool.false_eq_true,
          cosineSimilarity_ok_of_length_eq v r.vector hlen.symm, ihr]
        simp [scoredList, List.filter_cons, hpass]
      | false =>
        have hpass : passesFilterB f r = false := by
          simp [passesFilterB, hact, hb]
        rw [queryScan]
        simp only [hact, if_true, reduceIte, hb, Bind.bind, Except.bind,
          Pure.pure, Except.pure, Bool.not_false, if_true, ihr]
        simp [scoredList, List.filter_cons, hpass]
    · have hact' : filterActive f = false := by simpa using hact
      have hpass : passesFilterB f r = true := by
        simp [passesFilterB, hact']
      have hlen : r.vector.length = v.length :=
        Hd (id, r) (List.mem_cons_self _ _) hpass
      rw [queryScan]
      simp only [hact', Bool.false_eq_true, if_false, reduceIte, Bind.bind,
        Except.bind, Pure.pure, Except.pure,
        cosineSimilarity_ok_of_length_eq v r.vector hlen.symm, ihr]
      simp [scoredList, List.filter_cons, hpass]

/-- Inserting into the stable descending sort preserves the sublist of
matches with any fixed score: the skipped prefix has strictly larger
scores. -/
theorem filter_score_orderedInsert (s : ℝ) (a : MatchResult) :
    ∀ l : List MatchResult,
      (List.orderedInsert scoreGe a l).filter (fun mt => decide (mt.score = s)) =
        if a.score = s then
          a :: l.filter (fun mt => decide (mt.score = s))
        else l.filter (fun mt => decide (mt.score = s))
  | [] => by
    by_cases ha : a.score = s
    · simp [ha]
    · simp [ha]
  | b :: t => by
    have ih := filter_score_orderedInsert s a t
    simp only [List.orderedInsert]
    by_cases hab : scoreGe a b
    · rw [if_pos hab]
      by_cases ha : a.score = s <;> by_cases hb : b.score = s <;>
        simp [List.filter_cons, ha, hb]
    · rw [if_neg hab]
      have hlt : a.score < b.score := not_le.mp hab
      by_cases ha : a.score = s
      · have hb : ¬ b.score = s := fun h => ne_of_gt hlt (by rw [h, ha])
        simp [List.filter_cons, ha, hb, ih]
      · by_cases hb : b.score = s <;> simp [List.filter_cons, ha, hb, ih]

/-- Stability of the modelled sort: for every score, the matches with
that score appear in the sorted output exactly in their original order. -/
theorem filter_score_insertionSort (s : ℝ) :
    ∀ l : List MatchResult,
      (List.insertionSort scoreGe l).filter (fun mt => decide (mt.score = s)) =
        l.filter (fun mt => decide (mt.score = s))
  | [] => rfl
  | a :: t => by
    have ih := filter_score_insertionSort s t
    simp only [List.insertionSort]
    rw [filter_score_orderedInsert]
    by_cases ha : a.score = s
    · simp [List.filter_cons, ha, ih]
    · simp [List.filter_cons, ha, ih]

/-- If any filter-passing record's dimension mismatches the query
vector, the scan raises (some record's `_cosine_similarity` call, or an
earlier failure, throws). -/
theorem queryScan_error_of_mismatch (v : List ℚ) (f : Option FilterExpr) :
    ∀ st : Store,
      (∃ p ∈ st, passesFilterB f p.2 = true ∧ p.2.vector.length ≠ v.length) →
      ∃ e, queryScan v f st = .error e
  | [], h => absurd h (by simp)
  | (id, r) :: rest, h => by
    have ihr := queryScan_error_of_mismatch v f rest
    by_cases hact : filterActive f = true
    · rcases hmf : matchesFilter r.metadata (f.getD []) with e | b
      · exact ⟨e, by
          rw [queryScan]
          simp [hact, hmf, Bind.bind, Except.bind]⟩
      · cases b with
        | false =>
          obtain ⟨p, hp, hpass, hmm⟩ := h
          rcases List.mem_cons.mp hp with hh | ht
          · subst hh
            simp [passesFilterB, hact, hmf] at hpass
          · obtain ⟨e, he⟩ := ihr ⟨p, ht, hpass, hmm⟩
            exact ⟨e, by
              rw [queryScan]
              simp [hact, hmf, Bind.bind, Except.bind, Pure.pure, Except.pure, he]⟩
        | true =>
          obtain ⟨p, hp, hpass, hmm⟩ := h
          rcases List.mem_cons.mp hp with hh | ht
          · subst hh
            have hcs : cosineSimilarity v r.vector =
                .error "Vector dimensions don't match" := by
              rw [cosineSimilarity, if_neg (fun hl => hmm hl.symm)]
            exact ⟨"Vector dimensions don't match", by
              rw [queryScan]
              simp [hact, hmf, Bind.bind, Except.bind, Pure.pure, Except.pure, hcs]⟩
          · rcases hcs : cosineSimilarity v r.vector with e | s
            · exact ⟨e, by
                rw [queryScan]
                simp [hact, hmf, Bind.bind, Except.bind, Pure.pure, Except.pure, hcs]⟩
            · obtain ⟨e, he⟩ := ihr ⟨p, ht, hpass, hmm⟩
              exact ⟨e, by
                rw [queryScan]
                simp [hact, hmf, Bind.bind, Except.bind, Pure.pure, Except.pure,
                  hcs, he]⟩
    · have hact' : filterActive f = false := by simpa using hact
      obtain ⟨p, hp, hpass, hmm⟩ := h
      rcases List.mem_cons.mp hp with hh | ht
      · subst hh
        have hcs : cosineSimilarity v r.vector =
            .error "Vector dimensions don't match" := by
          rw [cosineSimilarity, if_neg (fun hl => hmm hl.symm)]
        exact ⟨"Vector dimensions don't match", by
          rw [queryScan]
          simp [hact', Bind.bind, Except.bind, Pure.pure, Except.pure, hcs]⟩
      · rcases hcs : cosineSimilarity v r.vector with e | s
        · exact ⟨e, by
            rw [queryScan]
            simp [hact', Bind.bind, Except.bind, Pure.pure, Except.pure, hcs]⟩
        · obtain ⟨e, he⟩ := ihr ⟨p, ht, hpass, hmm⟩
          exact ⟨e, by
            rw [queryScan]
            simp [hact', Bind.bind, Except.bind, Pure.pure, Except.pure, hcs, he]⟩

/-- The `except` handler of `query` turns any scan error into an empty
match list. -/
theorem query_eq_nil_of_mismatch (st : Store) (v : List ℚ) (k : ℕ)
    (f : Option FilterExpr)
    (h : ∃ p ∈ st, passesFilterB f p.2 = true ∧ p.2.vector.length ≠ v.length) :
    query st v k f = [] := by
  obtain ⟨e, he⟩ := queryScan_error_of_mismatch v f st h
  simp [query, he]

/-- C3 (counterexample): the unconditional count claim fails — on a
one-record store whose record has a different dimension than the query
vector, `query` returns 0 results, not `min(k, n) = 1`. -/
theorem query_count_counterexample :
    ¬ ((query [("a", ⟨[1, 2], []⟩)] [1] 1 none).length =
        min 1 ([("a", (⟨[1, 2], []⟩ : VectorRecord))] : Store).length) := by
  have hnil : query [("a", ⟨[1, 2], []⟩)] [1] 1 none = [] :=
    query_eq_nil_of_mismatch _ _ _ _
      ⟨("a", ⟨[1, 2], []⟩), List.mem_cons_self _ _, rfl, by decide⟩
  rw [hnil]
  decide

/-- C3 (amended): provided every filter check returns cleanly and every
filter-passing record's dimension matches the query vector, `query`
returns exactly `min k m` results (`m` the number of filter-passing
records), sorted by non-increasing score, each result comes from a
filter-passing record, the result is the `k`-prefix of the stable
descending sort of the scored scan, and ties keep insertion order. -/
theorem query_spec (st : Store) (v : List ℚ) (k : ℕ) (f : Option FilterExpr)
    (Hf : ∀ p ∈ st, filterActive f = true →
      ∃ b, matchesFilter p.2.metadata (f.getD []) = .ok b)
    (Hd : ∀ p ∈ st, passesFilterB f p.2 = true → p.2.vector.length = v.length) :
    (query st v k f).length =
        min k (st.filter fun p => passesFilterB f p.2).length ∧
      (query st v k f).Pairwise scoreGe ∧
      (∀ mt ∈ query st v k f, ∃ p ∈ st, passesFilterB f p.2 = true ∧
        mt.id = p.1 ∧ mt.metadata = p.2.metadata ∧
        mt.score = cosineValue v p.2.vector) ∧
      query st v k f =
        (List.insertionSort scoreGe (scoredList v f st)).take k ∧
      (∀ s : ℝ,
        (List.insertionSort scoreGe (scoredList v f st)).filter
            (fun mt => decide (mt.score = s)) =
          (scoredList v f st).filter (fun mt => decide (mt.score = s))) := by
  have hq : query st v k f =
      (List.insertionSort scoreGe (scoredList v f st)).take k := by
    simp [query, queryScan_ok v f st Hf Hd]
  refine ⟨?_, ?_, ?_, hq, fun s => filter_score_insertionSort s _⟩
  · rw [hq, List.length_take,
      (List.perm_insertionSort scoreGe (scoredList v f st)).length_eq,
      scoredList, List.length_map]
  · rw [hq]
    exact (List.sorted_insertionSort scoreGe (scoredList v f st)).sublist
      (List.take_sublist k _)
  · intro mt hmt
    rw [hq] at hmt
    have hmem : mt ∈ scoredList v f st :=
      (List.perm_insertionSort scoreGe (scoredList v f st)).mem_iff.mp
        (List.mem_of_mem_take hmt)
    rw [scoredList] at hmem
    obtain ⟨p, hpf, hval⟩ := List.mem_map.mp hmem
    obtain ⟨hpst, hpass⟩ := List.mem_filter.mp hpf
    exact ⟨p, hpst, hpass, by rw [← hval], by rw [← hval], by rw [← hval]⟩

/-- Witness for the amended C3: a two-record, dimension-consistent store
with no filter yields exactly `min 5 2 = 2` results. -/
theorem query_spec_witness :
    (query [("a", ⟨[1], []⟩), ("b", ⟨[2], []⟩)] [1] 5 none).length =
      min 5 (([("a", ⟨[1], []⟩), ("b", ⟨[2], []⟩)] : Store).filter
        fun p => passesFilterB none p.2).length :=
  (query_spec [("a", ⟨[1], []⟩), ("b", ⟨[2], []⟩)] [1] 5 none
    (fun p _ h => absurd h (by decide))
    (by decide)).1

/-- C9: if any filter-passing record's stored vector has a different
length than the query vector, the whole query returns an empty match
list — the per-record dimension error aborts the entire scan and no
exception reaches the caller. -/
theorem query_dimension_error_aborts (st : Store) (v : List ℚ) (k : ℕ)
    (f : Option FilterExpr)
    (h : ∃ p ∈ st, passesFilterB f p.2 = true ∧ p.2.vector.length ≠ v.length) :
    query st v k f = [] :=
  query_eq_nil_of_mismatch st v k f h

/-- Witness for C9: the mismatched record "a" hides even the
dimension-correct record "b" from the result. -/
theorem query_dimension_error_aborts_witness :
    query [("a", ⟨[1, 2], []⟩), ("b", ⟨[1], []⟩)] [1] 5 none = [] :=
  query_dimension_error_aborts _ _ _ _
    ⟨("a", ⟨[1, 2], []⟩), List.mem_cons_self _ _, rfl, by decide⟩

/-- C8 (counterexample): malformed input does not raise — an upsert of
an empty vector reports success and stores it, and a query whose vector
mismatches a record's dimension silently returns an empty match list. -/
theorem validation_raise_counterexample :
    (InMemoryVectorBackend.upsert [] "e" [] []).1 = true ∧
      InMemoryVectorBackend.get (InMemoryVectorBackend.upsert [] "e" [] []).2 "e" =
        some ⟨[], []⟩ ∧
      query [("c", ⟨[1, 2], []⟩)] [1] 7 none = [] :=
  ⟨rfl, rfl,
   query_eq_nil_of_mismatch _ _ _ _
     ⟨("c", ⟨[1, 2], []⟩), List.mem_cons_self _ _, rfl, by decide⟩⟩

/-- C8 (amended): operations never raise on malformed input; they
degrade silently — upsert returns `success=true` for every vector
(including empty ones), and a query met by a dimension mismatch returns
an empty match list. -/
theorem malformed_input_degrades_silently (st : Store) (id : String)
    (v : List ℚ) (m : Metadata) (stq : Store) (vq : List ℚ) (k : ℕ)
    (h : ∃ p ∈ stq, p.2.vector.length ≠ vq.length) :
    (InMemoryVectorBackend.upsert st id v m).1 = true ∧
      query stq vq k none = [] :=
  ⟨rfl, query_eq_nil_of_mismatch stq vq k none
    (by
      obtain ⟨p, hp, hmm⟩ := h
      exact ⟨p, hp, rfl, hmm⟩)⟩

/-- Witness for the amended C8 at concrete malformed inputs. -/
theorem malformed_input_degrades_silently_witness :
    (InMemoryVectorBackend.upsert [("x", ⟨[5], []⟩)] "y" [] []).1 = true ∧
      query [("z", ⟨[3, 4, 5], []⟩)] [1, 2] 3 none = [] :=
  malformed_input_degrades_silently [("x", ⟨[5], []⟩)] "y" [] []
    [("z", ⟨[3, 4, 5], []⟩)] [1, 2] 3
    ⟨("z", ⟨[3, 4, 5], []⟩), List.mem_cons_self _ _, by decide⟩

/-! ## The second in-memory store (`memory_backend.py`)

`InMemoryStore` keeps two dicts (`self.vectors`, `self.metadata`) and a
numpy-based `query` whose `filter_expr` parameter (an optional string)
is only mentioned in a log warning. -/

/-- `self.vectors`: id → stored vector. -/
abbrev VecMap := List (String × List ℚ)

/-- `self.metadata`: id → metadata mapping. -/
abbrev MetaMap := List (String × Metadata)

/-- `self.metadata.get(uid, {})`. -/
def metaGet : MetaMap → String → Metadata
  | [], _ => []
  | (k, m) :: rest, uid => if k = uid then m else metaGet rest uid

open Classical in
/-- The per-record similarity in `InMemoryStore.query`: norms are
checked (and zero short-circuits to `0.0`) before `np.dot` runs, so a
dimension mismatch raises only when both norms are nonzero. -/
noncomputable def npCosine (v w : List ℚ) : Except String ℝ :=
  if magnitude v = 0 ∨ magnitude w = 0 then .ok 0
  else if v.length = w.length then
    .ok ((dotProduct v w : ℚ) / (magnitude v * magnitude w))
  else .error "shapes not aligned"

/-- The scan loop of `InMemoryStore.query`. -/
noncomputable def imScan (v : List ℚ) (mm : MetaMap) :
    VecMap → Except String (List MatchResult)
  | [] => .ok []
  | (uid, w) :: rest => do
    let s ← npCosine v w
    let tl ← imScan v mm rest
    pure (⟨uid, s, metaGet mm uid⟩ :: tl)

/-- `InMemoryStore.query(vec, k, filter_expr)`: the `matches` list.  A
truthy `filter_expr` only triggers a log warning; the scan, sort and
truncation never consult it. -/
noncomputable def imQuery (vs : VecMap) (mm : MetaMap) (v : List ℚ) (k : ℕ)
    (filterExpr : Option String) : List MatchResult :=
  if vs.isEmpty then []
  else
    match imScan v mm vs with
    | .ok results => (List.insertionSort scoreGe results).take k
    | .error _ => []

/-- C10: `InMemoryStore.query` ignores the filter argument entirely:
for every store state, query vector, `k` and filter expression, the
result equals the filterless query — the top-k over all records, with no
record excluded by metadata. -/
theorem imQuery_ignores_filter (vs : VecMap) (mm : MetaMap) (v : List ℚ)
    (k : ℕ) (filterExpr : Option String) :
    imQuery vs mm v k filterExpr = imQuery vs mm v k none := rfl

end PRISMAgent
